import Mathlib

/-!
# Starburst-One: single alphanumeric display message scroller

A shallow embedding of `src/main.c` (ATtiny461A firmware driving a multiplexed
LTP-587G display) and a verification of its specification.

* The two PROGMEM tables `segments` and `patterns` are built from their
  designated initialisers, in the order in which the source lists them.
* Every volatile register write and every busy-wait delay is an `Event`; the
  loops of `main` produce the list of events they perform, in program order.
* Register contents are recovered by replaying events over a `Regs` record.
* Table reads return `Option`, `none` standing for an out-of-bounds read.
* Whether plain `char` is signed is the compiler's choice; it is the parameter
  `isSigned` of everything that reads a character of the message.
-/

namespace Starburst

/-! ## Data model -/

/-- The `struct segment` of the source: two bytes, overlaid by a 16-bit `val`. -/
structure segment where
  ddra : Nat
  ddrb : Nat
deriving DecidableEq

/-- The `uint16_t val` member of the union (the AVR is little-endian, `ddra`
is the low byte). -/
def segment.val (s : segment) : Nat := s.ddra + 256 * s.ddrb

/-- Builds `struct segment s = {.val = v}` and exposes its two byte members. -/
def segment.ofVal (v : Nat) : segment := ⟨v % 256, v / 256 % 256⟩

/-! ### `enum seg` -/

def SEG_A : Nat := 0
def SEG_C : Nat := 1
def SEG_D : Nat := 2
def SEG_E : Nat := 3
def SEG_F : Nat := 4
def SEG_G : Nat := 5
def SEG_H : Nat := 6
def SEG_K : Nat := 7
def SEG_M : Nat := 8
def SEG_N : Nat := 9
def SEG_P : Nat := 10
def SEG_R : Nat := 11
def SEG_S : Nat := 12
def SEG_T : Nat := 13
def SEG_U : Nat := 14
def NUM_SEGS : Nat := 15

/-- A C array of `n` elements given by designated initialisers `[k] = v`:
element `k` is the value of the last initialiser that names `k`, and the
zero value `z` when no initialiser names it. -/
def designatedAt {α : Type} (z : α) (init : List (Nat × α)) (k : Nat) : α :=
  match init.reverse.find? (fun p => p.1 == k) with
  | some p => p.2
  | none => z

/-- The whole array, elements `0 .. n-1`. -/
def designated {α : Type} (z : α) (n : Nat) (init : List (Nat × α)) : List α :=
  (List.range n).map (designatedAt z init)

/-- The initialiser list of `segments`, in source order. -/
def segmentsInit : List (Nat × segment) :=
  [ (SEG_A, ⟨0b00000001, 0b00000000⟩),
    (SEG_M, ⟨0b00000010, 0b00000000⟩),
    (SEG_K, ⟨0b00000100, 0b00000000⟩),
    (SEG_H, ⟨0b00001000, 0b00000000⟩),
    (SEG_G, ⟨0b00010000, 0b00000000⟩),
    (SEG_T, ⟨0b00100000, 0b00000000⟩),
    (SEG_E, ⟨0b01000000, 0b00000000⟩),
    (SEG_F, ⟨0b10000000, 0b00000000⟩),
    (SEG_N, ⟨0b00000000, 0b00000001⟩),
    (SEG_C, ⟨0b00000000, 0b00000010⟩),
    (SEG_P, ⟨0b00000000, 0b00000100⟩),
    (SEG_U, ⟨0b00000000, 0b00001000⟩),
    (SEG_D, ⟨0b00000000, 0b00010000⟩),
    (SEG_R, ⟨0b00000000, 0b00100000⟩),
    (SEG_S, ⟨0b00000000, 0b01000000⟩) ]

/-- The table `static const struct segment segments[15]`. -/
def segments : List segment := designated ⟨0, 0⟩ 15 segmentsInit

/-! ### `enum segbit` -/

def sa : Nat := 1 <<< SEG_A
def sc : Nat := 1 <<< SEG_C
def sd : Nat := 1 <<< SEG_D
def se : Nat := 1 <<< SEG_E
def sf : Nat := 1 <<< SEG_F
def sg : Nat := 1 <<< SEG_G
def sh : Nat := 1 <<< SEG_H
def sk : Nat := 1 <<< SEG_K
def sm : Nat := 1 <<< SEG_M
def sn : Nat := 1 <<< SEG_N
def sp : Nat := 1 <<< SEG_P
def sr : Nat := 1 <<< SEG_R
def ss : Nat := 1 <<< SEG_S
def st : Nat := 1 <<< SEG_T
def su : Nat := 1 <<< SEG_U

/-- The code of an ASCII character, as used for a table index. -/
def code (ch : Char) : Nat := ch.toNat

/-- The initialiser list of `patterns`, in source order. The apostrophe is
code 0x27 and the backslash is code 0x5C. -/
def patternsInit : List (Nat × Nat) :=
  [ (code ' ', 0),
    (code '!', sh|||sm|||sf|||se|||sd),
    (code '"', sh|||sm),
    (code '#', sc|||sd|||se|||sf|||sm|||sp|||ss|||su),
    (code '$', sa|||sd|||se|||sf|||sh|||sm|||sp|||ss|||su),
    (code '%', sd|||sh|||sk|||sn|||sp|||sr|||st|||su),
    (code '&', sa|||sd|||se|||sf|||sg|||sk|||sn|||sr|||su),
    (0x27, sm),
    (code '(', sn|||sr),
    (code ')', sk|||sr),
    (code '*', sk|||sm|||sn|||sp|||sr|||ss|||st|||su),
    (code '+', sm|||sp|||ss|||su),
    (code ',', st),
    (code '-', sp|||su),
    (code '.', sf),
    (code '/', sn|||st),
    (code '0', sa|||sc|||sd|||se|||sf|||sg|||sh),
    (code '1', sc|||sd),
    (code '2', sa|||sc|||se|||sf|||sg|||sp|||su),
    (code '3', sa|||sc|||sd|||se|||sf|||sp|||su),
    (code '4', sc|||sd|||sh|||sp|||su),
    (code '5', sa|||sd|||se|||sf|||sh|||sp|||su),
    (code '6', sa|||sd|||se|||sf|||sg|||sh|||sp|||su),
    (code '7', sa|||sc|||sd),
    (code '8', sa|||sc|||sd|||se|||sf|||sg|||sh|||sp|||su),
    (code '9', sa|||sc|||sd|||se|||sf|||sh|||sp|||su),
    (code ':', sf|||su),
    (code ';', sf|||sp),
    (code '<', se|||sf|||sn|||st),
    (code '=', se|||sf|||sp|||su),
    (code '>', se|||sf|||sk|||sr),
    (code '?', sa|||sc|||sh|||sp|||ss),
    (code '@', sa|||sc|||sd|||se|||sf|||sg|||ss|||su),
    (code 'A', sa|||sc|||sd|||sg|||sh|||sp|||su),
    (code 'B', sa|||sc|||sd|||se|||sf|||sp|||sm|||ss),
    (code 'C', sa|||se|||sf|||sg|||sh),
    (code 'D', sa|||sc|||sd|||se|||sf|||sm|||ss),
    (code 'E', sa|||se|||sf|||sg|||sh|||su),
    (code 'F', sa|||sg|||sh|||su),
    (code 'G', sa|||sd|||se|||sf|||sg|||sh|||sp),
    (code 'H', sc|||sd|||sg|||sh|||sp|||su),
    (code 'I', sa|||se|||sf|||sm|||ss),
    (code 'J', sc|||sd|||se|||sf|||sg),
    (code 'K', sg|||sh|||sn|||sr|||su),
    (code 'L', se|||sf|||sg|||sh),
    (code 'M', sc|||sd|||sg|||sh|||sk|||sn),
    (code 'N', sc|||sd|||sg|||sh|||sk|||sr),
    (code 'O', sa|||sc|||sd|||se|||sf|||sg|||sh),
    (code 'P', sa|||sc|||sg|||sh|||sp|||su),
    (code 'Q', sa|||sc|||sd|||se|||sf|||sg|||sh|||sr),
    (code 'R', sa|||sc|||sg|||sh|||sr|||sp|||su),
    (code 'S', sa|||sd|||se|||sf|||sh|||sp|||su),
    (code 'T', sa|||sm|||ss),
    (code 'U', sc|||sd|||se|||sf|||sg|||sh),
    (code 'V', sg|||sh|||sn|||st),
    (code 'W', sc|||sd|||sg|||sh|||sr|||st),
    (code 'X', sk|||sn|||sr|||st),
    (code 'Y', sc|||sh|||sp|||ss|||su),
    (code 'Z', sa|||se|||sf|||sn|||st),
    (code '[', sa|||sf|||sg|||sh),
    (0x5C, sk|||sr),
    (code ']', sa|||sc|||sd|||se),
    (code '^', sr|||st),
    (code '_', sf|||se),
    (code '{', se|||sn|||ss|||su),
    (code '|', sm|||ss),
    (code '}', sf|||sk|||sp|||ss),
    (code '~', sd|||se|||sg|||ss|||su) ]

/-- The table `static const uint16_t patterns[256]`. -/
def patterns : List Nat := designated 0 256 patternsInit

/-- The bytes of the string literal `"HELLO WORLD "`, without the
terminating NUL that the compiler appends. -/
def message : List Nat := "HELLO WORLD ".toList.map code

def SPEED : Nat := 200

/-! ## Registers and events -/

/-- The four I/O registers written by `main`. -/
structure Regs where
  ddra : Nat
  ddrb : Nat
  porta : Nat
  portb : Nat
deriving DecidableEq

/-- One observable action of the firmware: a volatile register write or a
busy-wait delay. -/
inductive Event
  | DDRA (v : Nat)
  | DDRB (v : Nat)
  | PORTA (v : Nat)
  | PORTB (v : Nat)
  | delay_us (t : Nat)
  | delay_ms (t : Nat)
deriving DecidableEq

/-- Effect of one event on the registers. -/
def Regs.write (r : Regs) : Event → Regs
  | .DDRA v => { r with ddra := v }
  | .DDRB v => { r with ddrb := v }
  | .PORTA v => { r with porta := v }
  | .PORTB v => { r with portb := v }
  | .delay_us _ => r
  | .delay_ms _ => r

/-- Registers after a sequence of events. -/
def run (r : Regs) (evs : List Event) : Regs := evs.foldl Regs.write r

/-- The steps of a run of `evs` from `r`: each event with the register state
right after it, in order. -/
def steps (r : Regs) : List Event → List (Event × Regs)
  | [] => []
  | e :: es => (e, r.write e) :: steps (r.write e) es

/-- Whether the event is a write of DDRA. In `main` every write of DDRA is
directly followed by a write of DDRB. -/
def Event.isDDRA : Event → Bool
  | .DDRA _ => true
  | _ => false

/-- Duration of an event in microseconds (register writes take no modelled
time). -/
def Event.micros : Event → Nat
  | .delay_us t => t
  | .delay_ms t => 1000 * t
  | _ => 0

/-- Number of 1 bits of an 8-bit register value. -/
def popcount (v : Nat) : Nat := (List.range 8).countP fun k => v.testBit k

/-! ## The program -/

/-- The read `pgm_read_word(patterns+idx)`; `none` outside the table. -/
def pgm_read_word_patterns (idx : Nat) : Option Nat := patterns[idx]?

/-- The read `pgm_read_word(segments+i)`; `none` outside the table. -/
def pgm_read_word_segments (i : Nat) : Option Nat := segments[i]?.map segment.val

/-- The read `*c` for `c = message + ci`, the string being stored with its
terminating NUL; `none` outside the string. -/
def readChar (msg : List Nat) (ci : Nat) : Option Nat := (msg ++ [0])[ci]?

/-- Body of the inner `for` loop (lines 200-209), apart from the update of
`segmask`. -/
def sliceBody (pattern segmask i : Nat) : Option (List Event) := do
  let s := segment.ofVal (← pgm_read_word_segments i)
  pure ((if pattern &&& segmask ≠ 0 then [Event.DDRA s.ddra, Event.DDRB s.ddrb]
         else [Event.DDRA 0, Event.DDRB 0]) ++ [Event.delay_us 100])

/-- The loop `for (enum seg i = ...; i < NUM_SEGS; i++)` entered with the
given `i` and `segmask`; `segmask` is a `uint16_t`. -/
def segLoop (pattern : Nat) (i segmask : Nat) : Option (List Event) :=
  if i < NUM_SEGS then do
    let evs ← sliceBody pattern segmask i
    let rest ← segLoop pattern (i + 1) ((segmask <<< 1) % 65536)
    pure (evs ++ rest)
  else pure []
termination_by NUM_SEGS - i

/-- The loop `for (uint16_t count = ...; count < SPEED; count++)` entered with
the given `count`. -/
def countLoop (pattern : Nat) (count : Nat) : Option (List Event) :=
  if count < SPEED then do
    let pass ← segLoop pattern 0 sa
    let rest ← countLoop pattern ((count + 1) % 65536)
    pure (pass ++ rest)
  else pure []
termination_by SPEED - count
decreasing_by
  simp only [SPEED] at *
  omega

/-- The value of the expression `*c` for a stored byte `b`; plain `char` is
signed or unsigned at the choice of the compiler. -/
def charValue (isSigned : Bool) (b : Nat) : Int :=
  if isSigned && decide (128 ≤ b) then (b : Int) - 256 else (b : Int)

/-- The read `pgm_read_word(patterns+idx)` for an index that may be
negative; `none` outside the table. -/
def pgm_read_word_patterns_at (idx : Int) : Option Nat :=
  if 0 ≤ idx then pgm_read_word_patterns idx.toNat else none

/-- Lines 196-211 for a non-negative value `ch` of `*c`: the table read and
the dwell. -/
def dwell (ch : Nat) : Option (List Event) := do
  let pattern ← pgm_read_word_patterns ch
  countLoop pattern 0

/-- Lines 196-211 for any value `idx` of `*c`: a negative index is before the
table. -/
def dwellAt (idx : Int) : Option (List Event) :=
  if 0 ≤ idx then dwell idx.toNat else none

/-- Lines 212-213: `c++; if (*c == 0) c = message`, on the index of `c`. The
value of `*c` is 0 exactly when the stored byte is 0, whether `char` is
signed or not. -/
def advance (msg : List Nat) (ci : Nat) : Option Nat := do
  let ch ← readChar msg (ci + 1)
  pure (if ch = 0 then 0 else ci + 1)

/-- Lines 215-217: blank out after each character. -/
def blank : List Event := [Event.DDRA 0, Event.DDRB 0, Event.delay_ms 30]

/-- One iteration of `while (1)`, entered with `c = message + ci`, in a build
where plain `char` is signed (`isSigned`) or unsigned: its events and the
index of `c` at the end of it. The table index is the value of `*c`, which is
negative for a stored byte from 0x80 up when `char` is signed. -/
def whileBody (isSigned : Bool) (msg : List Nat) (ci : Nat) :
    Option (List Event × Nat) := do
  let b ← readChar msg ci
  let d ← dwellAt (charValue isSigned b)
  let ci1 ← advance msg ci
  pure (d ++ blank, ci1)

/-- The first `n` iterations of `while (1)`, entered with `c = message + ci`. -/
def mainLoop (isSigned : Bool) (msg : List Nat) : Nat → Nat → Option (List Event)
  | 0, _ => some []
  | n + 1, ci => do
    let step ← whileBody isSigned msg ci
    let rest ← mainLoop isSigned msg n step.2
    pure (step.1 ++ rest)

/-- Lines 186-191: all pins at hi-z, pull-ups disabled. -/
def mainInit : List Event :=
  [Event.DDRA 0, Event.DDRB 0, Event.PORTA 0, Event.PORTB 0]

/-- The events of `main` up to the end of the `n`-th iteration of its
endless loop. -/
def main (isSigned : Bool) (msg : List Nat) (n : Nat) : Option (List Event) := do
  let evs ← mainLoop isSigned msg n 0
  pure (mainInit ++ evs)

/-! ## The behaviour the specification describes

These definitions follow the words of the specification (drive rule, scan
pass, dwell, blank); the theorems below compare them with the loops above. -/

/-- The mask stored for a character code, 0 outside the table. -/
def lookup (c : Nat) : Nat := patterns.getD c 0

/-- The descriptor of a segment ordinal as written in the initialiser of
`segments`. -/
def descriptor (i : Nat) : segment := segments.getD i ⟨0, 0⟩

/-- Per-slice drive rule: the descriptor of ordinal `i` when bit `i` of the
mask is set, all-floating otherwise. -/
def driveRule (pattern i : Nat) : segment :=
  if pattern.testBit i then descriptor i else ⟨0, 0⟩

/-- A drive operation: both direction registers are written, then the slice
is held for 100 microseconds. -/
def driveOp (s : segment) : List Event :=
  [Event.DDRA s.ddra, Event.DDRB s.ddrb, Event.delay_us 100]

/-- The register pairs of one scan pass: the ordinals `0 .. NUM_SEGS-1` in
increasing order, each under the drive rule. -/
def passOps (pattern : Nat) : List segment :=
  (List.range NUM_SEGS).map (driveRule pattern)

/-- The register pairs of the dwell: `SPEED` scan passes. -/
def dwellOps (pattern : Nat) : List segment :=
  (List.replicate SPEED (passOps pattern)).flatten

/-- Events of one scan pass. -/
def passSpec (pattern : Nat) : List Event := (passOps pattern).flatMap driveOp

/-- Events of the dwell. -/
def dwellSpec (pattern : Nat) : List Event := (dwellOps pattern).flatMap driveOp

/-- One character display cycle: the dwell, then the blank. -/
def cycleSpec (c : Nat) : List Event := dwellSpec (lookup c) ++ blank

/-- The character codes of the first `n` display cycles of a message used
cyclically, the first cycle showing the character at index `ci`. -/
def shown (msg : List Nat) (ci n : Nat) : List Nat :=
  (List.range n).map fun k => msg.getD ((ci + k) % msg.length) 0

/-! ## Observations on the program -/

/-- The index of `c` at the top of the `n`-th iteration of `while (1)`
(`n` counted from 0). -/
def cursor (isSigned : Bool) (msg : List Nat) : Nat → Option Nat
  | 0 => some 0
  | n + 1 => do
    let ci ← cursor isSigned msg n
    let step ← whileBody isSigned msg ci
    pure step.2

/-- The character code read at the top of the `n`-th iteration. -/
def displayed (isSigned : Bool) (msg : List Nat) (n : Nat) : Option Nat := do
  let ci ← cursor isSigned msg n
  readChar msg ci

/-- The register states `main` reaches from the end of its initial register
writes onward, when started with the registers holding `r0`: the state at the
end of the initial writes and the state after every later event. -/
def Reachable (isSigned : Bool) (msg : List Nat) (r0 r : Regs) : Prop :=
  ∃ n evs, mainLoop isSigned msg n 0 = some evs ∧
    (r = run r0 mainInit ∨ ∃ e, (e, r) ∈ steps (run r0 mainInit) evs)

/-- The reachable states other than the one between a write of DDRA and the
write of DDRB that follows it: the state at the end of the initial writes,
and the state after every write of DDRB and every delay. -/
def Settled (isSigned : Bool) (msg : List Nat) (r0 r : Regs) : Prop :=
  ∃ n evs, mainLoop isSigned msg n 0 = some evs ∧
    (r = run r0 mainInit ∨
      ∃ e, (e, r) ∈ steps (run r0 mainInit) evs ∧ e.isDDRA = false)

/-- The output state drives at most one segment: at most one direction bit
is set over DDRA and DDRB, the state being all-floating or the descriptor of
one segment ordinal. -/
def AtMostOneSegment (r : Regs) : Prop :=
  popcount r.ddra + popcount r.ddrb ≤ 1 ∧
    ((r.ddra = 0 ∧ r.ddrb = 0) ∨
      ∃ i, i < NUM_SEGS ∧ r.ddra = (descriptor i).ddra ∧ r.ddrb = (descriptor i).ddrb)

/-- Number of drive slices in a sequence of events. -/
def driveCount (evs : List Event) : Nat := evs.count (Event.delay_us 100)

/-- Whether the pair `s` is written to (DDRA, DDRB) somewhere in `evs`. -/
def written (s : segment) : List Event → Bool
  | Event.DDRA a :: Event.DDRB b :: rest =>
    (a == s.ddra && b == s.ddrb) || written s rest
  | _ :: rest => written s rest
  | [] => false

/-- The segment ordinals whose descriptor is written to (DDRA, DDRB) in
`evs`. -/
def energized (evs : List Event) : List Nat :=
  (List.range NUM_SEGS).filter fun i => written (descriptor i) evs

/-- A message as the firmware can hold it: at least one character, every
character a non-NUL byte, and, in a build where plain `char` is signed, every
character below 0x80, so that the value of `*c` is an index inside
`patterns`. -/
def ValidMessage (isSigned : Bool) (msg : List Nat) : Prop :=
  msg ≠ [] ∧ ∀ b ∈ msg, b ≠ 0 ∧ b < 256 ∧ (isSigned = true → b < 128)

instance (isSigned : Bool) (msg : List Nat) : Decidable (ValidMessage isSigned msg) := by
  unfold ValidMessage
  infer_instance

/-! ## Parts of the loop body and further observations -/

/-- Lines 200 and 202-203, the true branch of the slice for ordinal `i`: the
descriptor is read as one word, then DDRA and DDRB are written from its two
bytes. -/
def activate (i : Nat) : Option (List Event) := do
  let s := segment.ofVal (← pgm_read_word_segments i)
  pure [Event.DDRA s.ddra, Event.DDRB s.ddrb]

/-- Lines 205-206, the false branch of the slice. -/
def deactivate_all : List Event := [Event.DDRA 0, Event.DDRB 0]

/-- The values of `i` and `segmask` at each execution of the body of the
inner `for` loop entered with the given `i` and `segmask`, in order. -/
def segVisits (i segmask : Nat) : List (Nat × Nat) :=
  if i < NUM_SEGS then (i, segmask) :: segVisits (i + 1) ((segmask <<< 1) % 65536)
  else []
termination_by NUM_SEGS - i

/-- The state of `main` at the top of the `n`-th iteration of `while (1)`:
the index of `c` and the registers, `main` having been entered with the
registers holding `r0`. -/
def topState (isSigned : Bool) (msg : List Nat) (r0 : Regs) (n : Nat) :
    Option (Nat × Regs) := do
  let ci ← cursor isSigned msg n
  let evs ← main isSigned msg n
  pure (ci, run r0 evs)

/-! ## Tables -/

theorem designated_getElem? {α : Type} (z : α) (n : Nat) (init : List (Nat × α)) (k : Nat) :
    (designated z n init)[k]? = if k < n then some (designatedAt z init k) else none := by
  unfold designated
  by_cases h : k < n
  · simp [h, List.getElem?_range h]
  · simp [h]
    omega

theorem patterns_getElem? (c : Nat) (h : c < 256) :
    patterns[c]? = some (designatedAt 0 patternsInit c) := by
  simp [patterns, designated_getElem?, h]

theorem lookup_eq (c : Nat) (h : c < 256) : lookup c = designatedAt 0 patternsInit c := by
  simp [lookup, List.getD, patterns_getElem? c h]

theorem pgm_read_word_patterns_eq (c : Nat) (h : c < 256) :
    pgm_read_word_patterns c = some (lookup c) := by
  simp [pgm_read_word_patterns, patterns_getElem? c h, lookup_eq c h]

theorem segments_getElem? (i : Nat) (h : i < 15) :
    segments[i]? = some (designatedAt ⟨0, 0⟩ segmentsInit i) := by
  simp [segments, designated_getElem?, h]

theorem descriptor_eq (i : Nat) (h : i < 15) :
    descriptor i = designatedAt ⟨0, 0⟩ segmentsInit i := by
  simp [descriptor, List.getD, segments_getElem? i h]

/-- Both bytes of every descriptor fit in a byte, so the 16-bit read of a
table entry followed by the split into its two members gives it back. -/
theorem ofVal_val_descriptor (i : Nat) (h : i < 15) :
    segment.ofVal (descriptor i).val = descriptor i := by
  rw [descriptor_eq i h]
  revert i
  decide

theorem pgm_read_word_segments_eq (i : Nat) (h : i < 15) :
    pgm_read_word_segments i = some (descriptor i).val := by
  simp [pgm_read_word_segments, segments_getElem? i h, descriptor_eq i h]

/-! ## The loops -/

theorem and_two_pow_ne_zero (pattern i : Nat) :
    (pattern &&& 2 ^ i ≠ 0) ↔ pattern.testBit i = true := by
  rw [Nat.and_two_pow]
  cases pattern.testBit i <;> simp

theorem sliceBody_eq (pattern i : Nat) (h : i < 15) :
    sliceBody pattern (2 ^ i) i = some (driveOp (driveRule pattern i)) := by
  simp only [sliceBody, pgm_read_word_segments_eq i h, ofVal_val_descriptor i h, driveRule,
    driveOp, Option.bind_eq_bind, Option.some_bind, Option.pure_def]
  by_cases hb : pattern.testBit i = true
  · have := (and_two_pow_ne_zero pattern i).2 hb
    simp [hb, this]
  · have : ¬ (pattern &&& 2 ^ i ≠ 0) := fun hc => hb ((and_two_pow_ne_zero pattern i).1 hc)
    simp [hb, this]

theorem segLoop_eq (pattern : Nat) (k i : Nat) (h : i + k = 15) :
    segLoop pattern i (2 ^ i) =
      some (((List.range' i k).map (driveRule pattern)).flatMap driveOp) := by
  induction k generalizing i with
  | zero =>
    rw [segLoop]
    simp [NUM_SEGS]
    omega
  | succ k ih =>
    have hi : i < 15 := by omega
    have hs : (2 ^ i <<< 1) % 65536 = 2 ^ (i + 1) := by
      rw [Nat.shiftLeft_eq, ← Nat.pow_succ]
      apply Nat.mod_eq_of_lt
      calc 2 ^ (i + 1) ≤ 2 ^ 15 := Nat.pow_le_pow_right (by decide) (by omega)
        _ < 65536 := by decide
    rw [segLoop]
    simp only [NUM_SEGS, hi, if_true, sliceBody_eq pattern i hi, hs, ih (i + 1) (by omega)]
    simp [List.range'_succ]

theorem scanPass_eq (pattern : Nat) : segLoop pattern 0 sa = some (passSpec pattern) := by
  have := segLoop_eq pattern 15 0 (by decide)
  simpa [sa, SEG_A, passSpec, passOps, NUM_SEGS, List.range_eq_range'] using this

theorem countLoop_eq (pattern : Nat) (k count : Nat) (h : count + k = SPEED) :
    countLoop pattern count =
      some ((List.replicate k (passOps pattern)).flatten.flatMap driveOp) := by
  induction k generalizing count with
  | zero =>
    rw [countLoop]
    simp only [SPEED] at h
    simp [SPEED]
    omega
  | succ k ih =>
    have hc : count < 200 := by simp only [SPEED] at h; omega
    have hm : (count + 1) % 65536 = count + 1 := Nat.mod_eq_of_lt (by omega)
    rw [countLoop]
    simp only [SPEED, hc, if_true, scanPass_eq, hm, ih (count + 1) (by omega)]
    simp [List.replicate_succ, passSpec]

theorem dwell_eq (c : Nat) (h : c < 256) : dwell c = some (dwellSpec (lookup c)) := by
  simp only [dwell, pgm_read_word_patterns_eq c h, countLoop_eq (lookup c) SPEED 0 (by simp),
    dwellSpec, dwellOps, Option.bind_eq_bind, Option.some_bind]

/-! ## The message cursor -/

theorem readChar_lt (msg : List Nat) (ci : Nat) (h : ci < msg.length) :
    readChar msg ci = some (msg.getD ci 0) := by
  simp [readChar, List.getElem?_append_left h, List.getD, List.getElem?_eq_getElem h]

theorem readChar_length (msg : List Nat) : readChar msg msg.length = some 0 := by
  simp [readChar]

theorem advance_eq (isSigned : Bool) (msg : List Nat) (hv : ValidMessage isSigned msg)
    (ci : Nat) (h : ci < msg.length) :
    advance msg ci = some ((ci + 1) % msg.length) := by
  unfold advance
  by_cases hl : ci + 1 < msg.length
  · have hne : msg.getD (ci + 1) 0 ≠ 0 := by
      have hmem : msg.getD (ci + 1) 0 ∈ msg := by
        simp [List.getD, List.getElem?_eq_getElem hl]
      exact (hv.2 _ hmem).1
    rw [readChar_lt msg (ci + 1) hl]
    simp only [Option.bind_eq_bind, Option.some_bind, Option.pure_def, hne, if_false,
      Nat.mod_eq_of_lt hl]
  · have he : ci + 1 = msg.length := by omega
    simp [he, readChar_length]

theorem charValue_eq_of_index (isSigned : Bool) (b : Nat) (hs : isSigned = true → b < 128) :
    charValue isSigned b = (b : Int) := by
  cases isSigned with
  | false => simp [charValue]
  | true =>
    have hb : decide (128 ≤ b) = false := by
      rw [decide_eq_false_iff_not]
      have := hs rfl
      omega
    simp [charValue, hb]

theorem dwellAt_natCast (c : Nat) : dwellAt (c : Int) = dwell c := by
  simp [dwellAt]

theorem whileBody_eq (isSigned : Bool) (msg : List Nat) (hv : ValidMessage isSigned msg)
    (ci : Nat) (h : ci < msg.length) :
    whileBody isSigned msg ci = some (cycleSpec (msg.getD ci 0), (ci + 1) % msg.length) := by
  have hmem : msg.getD ci 0 ∈ msg := by
    simp [List.getD, List.getElem?_eq_getElem h]
  have hb : msg.getD ci 0 < 256 := (hv.2 _ hmem).2.1
  have hc : charValue isSigned (msg.getD ci 0) = ((msg.getD ci 0 : Nat) : Int) :=
    charValue_eq_of_index isSigned _ (hv.2 _ hmem).2.2
  simp only [whileBody, readChar_lt msg ci h, hc, dwellAt_natCast, dwell_eq _ hb,
    advance_eq isSigned msg hv ci h, cycleSpec, Option.bind_eq_bind, Option.some_bind,
    Option.pure_def]

theorem length_pos_of_valid (isSigned : Bool) (msg : List Nat)
    (hv : ValidMessage isSigned msg) : 0 < msg.length :=
  List.length_pos.2 hv.1

theorem mainLoop_eq (isSigned : Bool) (msg : List Nat) (hv : ValidMessage isSigned msg)
    (n ci : Nat) (h : ci < msg.length) :
    mainLoop isSigned msg n ci = some ((shown msg ci n).flatMap cycleSpec) := by
  induction n generalizing ci with
  | zero => simp [mainLoop, shown]
  | succ n ih =>
    have hpos := length_pos_of_valid isSigned msg hv
    have hlt : (ci + 1) % msg.length < msg.length := Nat.mod_lt _ hpos
    simp only [mainLoop, whileBody_eq isSigned msg hv ci h, ih _ hlt, Option.bind_eq_bind,
      Option.some_bind, Option.pure_def, shown, List.range_succ_eq_map, List.map_cons,
      List.map_map, List.flatMap_cons, Nat.add_zero, Nat.mod_eq_of_lt h]
    congr 3
    apply List.map_congr_left
    intro k _
    simp only [Function.comp, Nat.succ_eq_add_one]
    congr 1
    rw [Nat.add_mod, Nat.mod_mod, ← Nat.add_mod]
    congr 1
    omega

theorem main_eq (isSigned : Bool) (msg : List Nat)
    (hv : ValidMessage isSigned msg) (n : Nat) :
    main isSigned msg n = some (mainInit ++ (shown msg 0 n).flatMap cycleSpec) := by
  simp [main, mainLoop_eq isSigned msg hv n 0 (length_pos_of_valid isSigned msg hv)]

theorem cursor_eq (isSigned : Bool) (msg : List Nat)
    (hv : ValidMessage isSigned msg) (n : Nat) :
    cursor isSigned msg n = some (n % msg.length) := by
  have hpos := length_pos_of_valid isSigned msg hv
  induction n with
  | zero => simp [cursor]
  | succ n ih =>
    simp [cursor, ih, whileBody_eq isSigned msg hv _ (Nat.mod_lt n hpos)]

/-! ## Glyph table -/

theorem designatedAt_of_unnamed {α : Type} (z : α) (init : List (Nat × α)) (k : Nat)
    (h : ∀ p ∈ init, p.1 ≠ k) : designatedAt z init k = z := by
  have hf : init.reverse.find? (fun p => p.1 == k) = none := by
    rw [List.find?_eq_none]
    intro p hp
    have := h p (List.mem_reverse.1 hp)
    simpa using this
  simp [designatedAt, hf]

set_option maxRecDepth 100000 in
theorem unnamed_codes :
    ∀ c, c < 256 → ((∀ p ∈ patternsInit, p.1 ≠ c) ↔
      (c < 0x20 ∨ (0x60 ≤ c ∧ c ≤ 0x7A) ∨ c = 0x7F ∨ 0x80 ≤ c)) := by
  decide

set_option maxRecDepth 100000 in
theorem designatedAt_patterns_lt :
    ∀ c, c < 256 → designatedAt 0 patternsInit c < 2 ^ 15 := by
  decide

theorem lookup_lt (c : Nat) : lookup c < 2 ^ 15 := by
  by_cases h : c < 256
  · rw [lookup_eq c h]
    exact designatedAt_patterns_lt c h
  · have : patterns[c]? = none := by
      simp [patterns, designated_getElem?, h]
    simp [lookup, List.getD, this]

theorem named_lt_256 : ∀ p ∈ patternsInit, p.1 < 256 := by
  decide

/-- C2: every character code `c` in 0..255 without an explicit entry in the
`patterns` initialiser reads as the empty mask 0 (the read is in bounds and
yields 0); the codes without an entry are exactly those below 0x20, those
from 0x60 to 0x7A, 0x7F, and those from 0x80 up. -/
theorem lookup_unnamed_is_empty (c : Nat) (hc : c < 256) :
    ((∀ p ∈ patternsInit, p.1 ≠ c) → pgm_read_word_patterns c = some 0 ∧ lookup c = 0) ∧
    ((c < 0x20 ∨ (0x60 ≤ c ∧ c ≤ 0x7A) ∨ c = 0x7F ∨ 0x80 ≤ c) →
      (∀ p ∈ patternsInit, p.1 ≠ c) ∧ pgm_read_word_patterns c = some 0 ∧ lookup c = 0) := by
  have key : (∀ p ∈ patternsInit, p.1 ≠ c) → pgm_read_word_patterns c = some 0 ∧ lookup c = 0 := by
    intro h
    have h0 : lookup c = 0 := by
      rw [lookup_eq c hc]
      exact designatedAt_of_unnamed 0 patternsInit c h
    exact ⟨by rw [pgm_read_word_patterns_eq c hc, h0], h0⟩
  refine ⟨key, fun hr => ?_⟩
  have hu := (unnamed_codes c hc).2 hr
  exact ⟨hu, key hu⟩

theorem lookup_unnamed_is_empty_witness :
    (1 < 0x20 ∨ (0x60 ≤ 1 ∧ 1 ≤ 0x7A) ∨ 1 = 0x7F ∨ 0x80 ≤ 1) ∧
      pgm_read_word_patterns 1 = some 0 ∧ pgm_read_word_patterns 0x61 = some 0 :=
  ⟨by decide, ((lookup_unnamed_is_empty 1 (by decide)).2 (by decide)).2.1,
    ((lookup_unnamed_is_empty 0x61 (by decide)).2 (by decide)).2.1⟩

/-- C3, as stated, fails: the glyph `#` has an explicit entry and its mask
contains `su`, the bit at position 14, so the mask is not below 2^14. -/
theorem glyph_mask_uses_bit_14 :
    (∃ p ∈ patternsInit, p.1 = code '#') ∧ pgm_read_word_patterns (code '#') = some 21790 ∧
      (21790).testBit 14 = true ∧ ¬ (21790 < 2 ^ 14) := by
  refine ⟨by decide, ?_, by decide, by decide⟩
  rw [pgm_read_word_patterns_eq _ (by decide), lookup_eq _ (by decide)]
  decide

/-- C3, amended: for every character code with an explicit entry in the
`patterns` initialiser the mask contains only bits for the 15 segment
ordinals 0..14: it is below 2^15 and no bit at position 15 or higher is
set. -/
theorem glyph_mask_within_segments (c : Nat) (h : ∃ p ∈ patternsInit, p.1 = c) :
    pgm_read_word_patterns c = some (lookup c) ∧ lookup c < 2 ^ NUM_SEGS ∧
      ∀ k, NUM_SEGS ≤ k → (lookup c).testBit k = false := by
  obtain ⟨p, hp, rfl⟩ := h
  have hc := named_lt_256 p hp
  refine ⟨pgm_read_word_patterns_eq _ hc, lookup_lt _, fun k hk => ?_⟩
  apply Nat.testBit_lt_two_pow
  calc lookup p.1 < 2 ^ 15 := lookup_lt _
    _ ≤ 2 ^ k := Nat.pow_le_pow_right (by decide) hk

theorem glyph_mask_within_segments_witness :
    pgm_read_word_patterns (code 'H') = some (lookup (code 'H')) ∧
      lookup (code 'H') < 2 ^ NUM_SEGS ∧
      ∀ k, NUM_SEGS ≤ k → (lookup (code 'H')).testBit k = false :=
  glyph_mask_within_segments (code 'H') (by decide)

/-! ## Descriptor table -/

/-- C10: the initialiser of `segments` names every ordinal 0..14 exactly
once; every descriptor is non-zero with exactly one bit set over its two
bytes; two distinct ordinals have different descriptors that share no set
bit in DDRA and none in DDRB. -/
theorem descriptors_one_hot_disjoint :
    segments.length = NUM_SEGS ∧
    (∀ i, i < NUM_SEGS → (segmentsInit.filter fun p => p.1 == i).length = 1) ∧
    (∀ i, i < NUM_SEGS → pgm_read_word_segments i = some (descriptor i).val ∧
      (descriptor i).val ≠ 0 ∧
      popcount (descriptor i).ddra + popcount (descriptor i).ddrb = 1) ∧
    (∀ i, i < NUM_SEGS → ∀ j, j < NUM_SEGS → i ≠ j →
      descriptor i ≠ descriptor j ∧
      (descriptor i).ddra &&& (descriptor j).ddra = 0 ∧
      (descriptor i).ddrb &&& (descriptor j).ddrb = 0) := by
  refine ⟨by decide, by decide, ?_, by decide⟩
  intro i hi
  refine ⟨pgm_read_word_segments_eq i hi, ?_⟩
  revert i
  decide

/-! ## Scan pass and dwell -/

theorem length_flatten_replicate {α : Type} (k : Nat) (l : List α) :
    (List.replicate k l).flatten.length = k * l.length := by
  induction k with
  | zero => simp
  | succ k ih => simp [List.replicate_succ, ih, Nat.succ_mul, Nat.add_comm]

theorem dwellOps_length (pattern : Nat) : (dwellOps pattern).length = SPEED * NUM_SEGS := by
  simp [dwellOps, length_flatten_replicate, passOps]

theorem driveCount_driveOps (ops : List segment) :
    driveCount (ops.flatMap driveOp) = ops.length := by
  induction ops with
  | nil => simp [driveCount]
  | cons s ops ih =>
    simp only [driveCount] at ih
    simp [driveCount, driveOp, List.count_cons, ih]

theorem driveCount_cycleSpec (c : Nat) : driveCount (cycleSpec c) = SPEED * NUM_SEGS := by
  have h := driveCount_driveOps (dwellOps (lookup c))
  simp only [driveCount] at h
  simp [cycleSpec, driveCount, dwellSpec, List.count_append, h, dwellOps_length, blank,
    List.count_cons]

theorem message_valid (isSigned : Bool) : ValidMessage isSigned message := by
  cases isSigned <;> decide

/-- C4, as stated, fails: the first display cycle of `main` (the iteration of
`while (1)` entered with `c = message`) performs 15 × SPEED = 3000 drive
slices before the blank, not 14 × SPEED = 2800, whether plain `char` is signed
or not. -/
theorem drive_slices_per_cycle_not_14_speed :
    (∃ evs ci, whileBody true message 0 = some (evs, ci) ∧
      driveCount evs = 3000 ∧ driveCount evs ≠ 14 * SPEED) ∧
    (∃ evs ci, whileBody false message 0 = some (evs, ci) ∧
      driveCount evs = 3000 ∧ driveCount evs ≠ 14 * SPEED) := by
  refine ⟨⟨_, _, whileBody_eq true message (message_valid true) 0 (by decide), ?_, ?_⟩,
    ⟨_, _, whileBody_eq false message (message_valid false) 0 (by decide), ?_, ?_⟩⟩
  all_goals
    rw [driveCount_cycleSpec]
    decide

/-- C4, amended: with segment count `NUM_SEGS` = 15 and dwell target `SPEED`,
one iteration of the outer loop performs exactly 15 × SPEED drive operations
(each a write of DDRA, a write of DDRB and the 100 µs delay) and then the
blank, and nothing else; this holds whether plain `char` is signed or not. -/
theorem cycle_drive_count (isSigned : Bool) (msg : List Nat) (hv : ValidMessage isSigned msg)
    (ci : Nat) (h : ci < msg.length) :
    ∃ ops : List segment, ops.length = 15 * SPEED ∧
      whileBody isSigned msg ci =
        some ((ops.flatMap fun s => [Event.DDRA s.ddra, Event.DDRB s.ddrb, Event.delay_us 100])
            ++ [Event.DDRA 0, Event.DDRB 0, Event.delay_ms 30], (ci + 1) % msg.length) ∧
      driveCount
        ((ops.flatMap fun s => [Event.DDRA s.ddra, Event.DDRB s.ddrb, Event.delay_us 100])
            ++ [Event.DDRA 0, Event.DDRB 0, Event.delay_ms 30]) = 15 * SPEED := by
  refine ⟨dwellOps (lookup (msg.getD ci 0)), ?_, whileBody_eq isSigned msg hv ci h, ?_⟩
  · rw [dwellOps_length, Nat.mul_comm]
    rfl
  · have := driveCount_cycleSpec (msg.getD ci 0)
    rw [Nat.mul_comm] at this
    exact this

theorem cycle_drive_count_witness :
    ∃ ops : List segment, ops.length = 15 * SPEED ∧
      whileBody true message 11 =
        some ((ops.flatMap fun s => [Event.DDRA s.ddra, Event.DDRB s.ddrb, Event.delay_us 100])
            ++ [Event.DDRA 0, Event.DDRB 0, Event.delay_ms 30], (11 + 1) % message.length) ∧
      driveCount
        ((ops.flatMap fun s => [Event.DDRA s.ddra, Event.DDRB s.ddrb, Event.delay_us 100])
            ++ [Event.DDRA 0, Event.DDRB 0, Event.delay_ms 30]) = 15 * SPEED :=
  cycle_drive_count true message (by decide) 11 (by decide)

/-- C5: for every character code `c`, the dwell of `c` reads the mask
`patterns[c]` and consists of `SPEED` scan passes, each visiting the ordinals
0..14 in order; the slice for ordinal `i` writes (DDRA, DDRB) =
(segments[i].ddra, segments[i].ddrb) when bit `i` of the mask is set and
(0, 0) otherwise, then waits 100 µs; nothing else is written. -/
theorem drive_rule_per_slice (c : Nat) (hc : c < 256) :
    pgm_read_word_patterns c = some (lookup c) ∧
    dwell c =
      some ((List.replicate SPEED
          ((List.range NUM_SEGS).map fun i =>
            if (lookup c).testBit i then descriptor i else ⟨0, 0⟩)).flatten.flatMap
        fun s => [Event.DDRA s.ddra, Event.DDRB s.ddrb, Event.delay_us 100]) :=
  ⟨pgm_read_word_patterns_eq c hc, dwell_eq c hc⟩

theorem drive_rule_per_slice_witness :
    pgm_read_word_patterns 72 = some (lookup 72) ∧
    dwell 72 =
      some ((List.replicate SPEED
          ((List.range NUM_SEGS).map fun i =>
            if (lookup 72).testBit i then descriptor i else ⟨0, 0⟩)).flatten.flatMap
        fun s => [Event.DDRA s.ddra, Event.DDRB s.ddrb, Event.delay_us 100]) :=
  drive_rule_per_slice 72 (by decide)

theorem written_driveOp_append (s x : segment) (rest : List Event) :
    written s (driveOp x ++ rest) =
      ((x.ddra == s.ddra && x.ddrb == s.ddrb) || written s rest) := by
  show written s (Event.DDRA x.ddra :: Event.DDRB x.ddrb :: Event.delay_us 100 :: rest) = _
  simp only [written]

theorem written_driveOps (s : segment) (ops : List segment) :
    written s (ops.flatMap driveOp) = true ↔ s ∈ ops := by
  induction ops with
  | nil => simp [written]
  | cons x ops ih =>
    rw [List.flatMap_cons, written_driveOp_append, Bool.or_eq_true, ih, List.mem_cons]
    constructor
    · rintro (h | h)
      · left
        simp only [Bool.and_eq_true, beq_iff_eq] at h
        cases s
        cases x
        simp_all
      · exact Or.inr h
    · rintro (rfl | h)
      · left
        simp
      · exact Or.inr h

theorem descriptor_ne_zero : ∀ i, i < 15 → descriptor i ≠ ⟨0, 0⟩ := by
  decide

theorem descriptor_injective :
    ∀ i, i < 15 → ∀ j, j < 15 → descriptor j = descriptor i → j = i := by
  decide

theorem mem_energized_passSpec (pattern : Nat) (hp : pattern < 2 ^ 15) (i : Nat) :
    i ∈ energized (passSpec pattern) ↔ pattern.testBit i = true := by
  simp only [energized, passSpec, List.mem_filter, List.mem_range, written_driveOps, passOps,
    List.mem_map, NUM_SEGS, driveRule]
  constructor
  · rintro ⟨hi, j, hj, hd⟩
    by_cases hb : pattern.testBit j = true
    · rw [if_pos hb] at hd
      have := descriptor_injective i hi j hj hd
      rw [← this]
      exact hb
    · rw [if_neg hb] at hd
      exact absurd hd.symm (descriptor_ne_zero i hi)
  · intro hb
    have hi : i < 15 := by
      by_contra hge
      have : pattern.testBit i = false := by
        apply Nat.testBit_lt_two_pow
        calc pattern < 2 ^ 15 := hp
          _ ≤ 2 ^ i := Nat.pow_le_pow_right (by decide) (by omega)
      rw [this] at hb
      exact Bool.noConfusion hb
    exact ⟨hi, i, hi, by rw [if_pos hb]⟩

/-- C6: for every character code `c`, the segment ordinals whose descriptor is
written to (DDRA, DDRB) during one scan pass for `c` are exactly the bit
positions set in `patterns[c]`; for `H` they are SEG_C, SEG_D, SEG_G, SEG_H,
SEG_P and SEG_U. -/
theorem pass_energizes_exactly_mask (c : Nat) (hc : c < 256) :
    pgm_read_word_patterns c = some (lookup c) ∧
    (∃ evs, segLoop (lookup c) 0 sa = some evs ∧
      ∀ i, i ∈ energized evs ↔ (lookup c).testBit i = true) ∧
    (segLoop (lookup (code 'H')) 0 sa).map energized =
      some [SEG_C, SEG_D, SEG_G, SEG_H, SEG_P, SEG_U] := by
  refine ⟨pgm_read_word_patterns_eq c hc, ⟨_, scanPass_eq _, ?_⟩, ?_⟩
  · exact mem_energized_passSpec _ (lookup_lt c)
  · rw [scanPass_eq, lookup_eq _ (by decide)]
    decide

theorem pass_energizes_exactly_mask_witness :
    pgm_read_word_patterns 69 = some (lookup 69) ∧
    (∃ evs, segLoop (lookup 69) 0 sa = some evs ∧
      ∀ i, i ∈ energized evs ↔ (lookup 69).testBit i = true) ∧
    (segLoop (lookup (code 'H')) 0 sa).map energized =
      some [SEG_C, SEG_D, SEG_G, SEG_H, SEG_P, SEG_U] :=
  pass_energizes_exactly_mask 69 (by decide)

/-- C7: for every non-empty message of non-NUL bytes (below 0x80 where plain
`char` is signed, so that every table read is inside `patterns`), the index
of `c` at the top of the `n`-th iteration of the loop is `n mod len`, which
is below `len`;
the character displayed in that iteration is `message[n mod len]`, never the
terminator; after the cycle for the final character the index is 0 again; and
the events of the first `n` iterations are the display cycles of
`message[k mod len]` for `k = 0 .. n-1`, in order. -/
theorem message_index_cyclic (isSigned : Bool) (msg : List Nat)
    (hv : ValidMessage isSigned msg) (n : Nat) :
    cursor isSigned msg n = some (n % msg.length) ∧ n % msg.length < msg.length ∧
    displayed isSigned msg n = msg[n % msg.length]? ∧ displayed isSigned msg n ≠ some 0 ∧
    (whileBody isSigned msg (msg.length - 1)).map Prod.snd = some 0 ∧
    main isSigned msg n = some (mainInit ++
      ((List.range n).map fun k => msg.getD (k % msg.length) 0).flatMap cycleSpec) := by
  have hpos := length_pos_of_valid isSigned msg hv
  have hlt : n % msg.length < msg.length := Nat.mod_lt n hpos
  have hd : displayed isSigned msg n = msg[n % msg.length]? := by
    simp only [displayed, cursor_eq isSigned msg hv n, Option.bind_eq_bind, Option.some_bind,
      readChar_lt msg _ hlt]
    simp [List.getD, List.getElem?_eq_getElem hlt]
  refine ⟨cursor_eq isSigned msg hv n, hlt, hd, ?_, ?_, ?_⟩
  · rw [hd, List.getElem?_eq_getElem hlt]
    intro h
    have h0 : msg[n % msg.length] = 0 := Option.some.inj h
    exact (hv.2 _ (List.getElem_mem hlt)).1 h0
  · rw [whileBody_eq isSigned msg hv _ (by omega)]
    have : msg.length - 1 + 1 = msg.length := by omega
    simp [this]
  · have := main_eq isSigned msg hv n
    simpa [shown] using this

theorem message_index_cyclic_witness :
    cursor true message 12 = some (12 % message.length) ∧ 12 % message.length < message.length ∧
    displayed true message 12 = message[12 % message.length]? ∧
    displayed true message 12 ≠ some 0 ∧
    (whileBody true message (message.length - 1)).map Prod.snd = some 0 ∧
    main true message 12 = some (mainInit ++
      ((List.range 12).map fun k => message.getD (k % message.length) 0).flatMap cycleSpec) :=
  message_index_cyclic true message (by decide) 12

/-- C8: for every message, whether plain `char` is signed or not, and every
`n`, the events of `main` up to the end of the `n`-th iteration are the
initial writes followed by `n` blocks, one per
character cycle, each block being the 15 × SPEED drive slices of the dwell
followed by exactly one blank step (DDRA = 0, DDRB = 0, held for 30 ms); so
between the last drive slice of one character and the first drive slice of
the next there is exactly one blank, whatever the two characters are, and the
blank (30000 µs) is strictly longer than a drive slice (100 µs). -/
theorem blank_between_characters (isSigned : Bool) (msg : List Nat)
    (hv : ValidMessage isSigned msg) (n : Nat) :
    ∃ dwells : List (List segment), dwells.length = n ∧
      (∀ d ∈ dwells, d.length = 15 * SPEED) ∧
      main isSigned msg n = some (mainInit ++ dwells.flatMap fun d =>
        (d.flatMap fun s => [Event.DDRA s.ddra, Event.DDRB s.ddrb, Event.delay_us 100]) ++
          [Event.DDRA 0, Event.DDRB 0, Event.delay_ms 30]) ∧
      (Event.delay_ms 30).micros = 30000 ∧
      (Event.delay_us 100).micros < (Event.delay_ms 30).micros := by
  refine ⟨(shown msg 0 n).map fun c => dwellOps (lookup c), ?_, ?_, ?_, by decide, by decide⟩
  · simp [shown]
  · intro d hd
    obtain ⟨c, _, rfl⟩ := List.mem_map.1 hd
    rw [dwellOps_length, Nat.mul_comm]
    rfl
  · rw [main_eq isSigned msg hv n, List.flatMap_map]
    rfl

theorem blank_between_characters_witness :
    ∃ dwells : List (List segment), dwells.length = 2 ∧
      (∀ d ∈ dwells, d.length = 15 * SPEED) ∧
      main true [code 'L', code 'L'] 2 = some (mainInit ++ dwells.flatMap fun d =>
        (d.flatMap fun s => [Event.DDRA s.ddra, Event.DDRB s.ddrb, Event.delay_us 100]) ++
          [Event.DDRA 0, Event.DDRB 0, Event.delay_ms 30]) ∧
      (Event.delay_ms 30).micros = 30000 ∧
      (Event.delay_us 100).micros < (Event.delay_ms 30).micros :=
  blank_between_characters true [code 'L', code 'L'] (by decide) 2

/-! ## Mutual exclusion -/

theorem run_append (r : Regs) (a b : List Event) : run r (a ++ b) = run (run r a) b := by
  simp [run, List.foldl_append]

theorem steps_append (r : Regs) (a b : List Event) :
    steps r (a ++ b) = steps r a ++ steps (run r a) b := by
  induction a generalizing r with
  | nil => simp [steps, run]
  | cons e a ih => simp [steps, run, ih]

theorem steps_driveOp_settled (r : Regs) (s : segment) (e : Event) (q : Regs)
    (h : (e, q) ∈ steps r (driveOp s)) (he : e.isDDRA = false) :
    q.ddra = s.ddra ∧ q.ddrb = s.ddrb := by
  simp only [driveOp, steps, List.mem_cons, Prod.mk.injEq, List.mem_nil_iff, or_false] at h
  rcases h with ⟨rfl, _⟩ | ⟨_, rfl⟩ | ⟨_, rfl⟩
  · simp [Event.isDDRA] at he
  · simp [Regs.write]
  · simp [Regs.write]

theorem steps_driveOps_settled (ops : List segment) (r : Regs) (e : Event) (q : Regs)
    (h : (e, q) ∈ steps r (ops.flatMap driveOp)) (he : e.isDDRA = false) :
    ∃ s ∈ ops, q.ddra = s.ddra ∧ q.ddrb = s.ddrb := by
  induction ops generalizing r with
  | nil => simp [steps] at h
  | cons x ops ih =>
    rw [List.flatMap_cons, steps_append, List.mem_append] at h
    rcases h with h | h
    · exact ⟨x, List.mem_cons_self _ _, steps_driveOp_settled r x e q h he⟩
    · obtain ⟨s, hs, hq⟩ := ih _ h
      exact ⟨s, List.mem_cons_of_mem _ hs, hq⟩

theorem steps_blank_settled (r : Regs) (e : Event) (q : Regs)
    (h : (e, q) ∈ steps r blank) (he : e.isDDRA = false) : q.ddra = 0 ∧ q.ddrb = 0 := by
  simp only [blank, steps, List.mem_cons, Prod.mk.injEq, List.mem_nil_iff, or_false] at h
  rcases h with ⟨rfl, _⟩ | ⟨_, rfl⟩ | ⟨_, rfl⟩
  · simp [Event.isDDRA] at he
  · simp [Regs.write]
  · simp [Regs.write]

theorem mem_dwellOps (pattern : Nat) (s : segment) (h : s ∈ dwellOps pattern) :
    ∃ j, j < NUM_SEGS ∧ s = driveRule pattern j := by
  simp only [dwellOps, List.mem_flatten, List.mem_replicate] at h
  obtain ⟨l, ⟨_, rfl⟩, hs⟩ := h
  simp only [passOps, List.mem_map, List.mem_range] at hs
  obtain ⟨j, hj, rfl⟩ := hs
  exact ⟨j, hj, rfl⟩

theorem popcount_descriptor :
    ∀ j, j < 15 → popcount (descriptor j).ddra + popcount (descriptor j).ddrb ≤ 1 := by
  decide

theorem atMostOne_of_driveRule (pattern j : Nat) (hj : j < NUM_SEGS) (q : Regs)
    (h : q.ddra = (driveRule pattern j).ddra ∧ q.ddrb = (driveRule pattern j).ddrb) :
    AtMostOneSegment q := by
  unfold driveRule at h
  by_cases hb : pattern.testBit j = true
  · rw [if_pos hb] at h
    refine ⟨?_, Or.inr ⟨j, hj, h⟩⟩
    rw [h.1, h.2]
    exact popcount_descriptor j hj
  · rw [if_neg hb] at h
    refine ⟨?_, Or.inl h⟩
    rw [h.1, h.2]
    decide

theorem atMostOne_of_zero (q : Regs) (h : q.ddra = 0 ∧ q.ddrb = 0) : AtMostOneSegment q := by
  refine ⟨?_, Or.inl h⟩
  rw [h.1, h.2]
  decide

theorem steps_cycles_settled (cs : List Nat) (r : Regs) (e : Event) (q : Regs)
    (h : (e, q) ∈ steps r (cs.flatMap cycleSpec)) (he : e.isDDRA = false) :
    AtMostOneSegment q := by
  induction cs generalizing r with
  | nil => simp [steps] at h
  | cons c cs ih =>
    rw [List.flatMap_cons, steps_append, List.mem_append] at h
    rcases h with h | h
    · rw [cycleSpec, steps_append, List.mem_append] at h
      rcases h with h | h
      · obtain ⟨s, hs, hq⟩ := steps_driveOps_settled _ r e q h he
        obtain ⟨j, hj, rfl⟩ := mem_dwellOps _ s hs
        exact atMostOne_of_driveRule _ j hj q hq
      · exact atMostOne_of_zero q (steps_blank_settled _ e q h he)
    · exact ih _ h

theorem run_mainInit (r0 : Regs) : run r0 mainInit = ⟨0, 0, 0, 0⟩ := by
  simp [run, mainInit, Regs.write]

theorem flatten_replicate_two {α : Type} (k : Nat) (l : List α) :
    (List.replicate (k + 2) l).flatten = l ++ (l ++ (List.replicate k l).flatten) := by
  simp [List.replicate_succ]

theorem dwellSpec_two_passes (pattern : Nat) :
    ∃ rest, dwellSpec pattern = passSpec pattern ++ (passSpec pattern ++ rest) := by
  refine ⟨(List.replicate 198 (passOps pattern)).flatten.flatMap driveOp, ?_⟩
  have h : dwellOps pattern =
      passOps pattern ++ (passOps pattern ++ (List.replicate 198 (passOps pattern)).flatten) :=
    flatten_replicate_two 198 (passOps pattern)
  simp only [dwellSpec, h, List.flatMap_append, passSpec]

theorem run_driveOps_last (r : Regs) (ops : List segment) (s : segment) :
    (run r ((ops ++ [s]).flatMap driveOp)).ddra = s.ddra ∧
      (run r ((ops ++ [s]).flatMap driveOp)).ddrb = s.ddrb := by
  rw [List.flatMap_append, run_append]
  simp [run, driveOp, Regs.write]

/-- C1: in every state `main` reaches from the end of its initial register
writes onward, other than the state between a write of DDRA and the write of
DDRB that follows it (so in every state held for a drive slice or a blank),
at most one bit is set over DDRA and DDRB together: the output state is
all-floating or the descriptor of one segment. This holds for every message
and whether plain `char` is signed or not. -/
theorem settled_states_one_segment (isSigned : Bool) (msg : List Nat)
    (hv : ValidMessage isSigned msg) (r0 r : Regs) (h : Settled isSigned msg r0 r) :
    AtMostOneSegment r := by
  obtain ⟨n, evs, hm, hr⟩ := h
  rw [mainLoop_eq isSigned msg hv n 0 (length_pos_of_valid isSigned msg hv)] at hm
  cases hm
  rcases hr with rfl | ⟨e, he, hd⟩
  · apply atMostOne_of_zero
    rw [run_mainInit]
    exact ⟨rfl, rfl⟩
  · exact steps_cycles_settled _ _ e r he hd

theorem settled_states_one_segment_witness :
    Settled true message ⟨0, 0, 0, 0⟩ ⟨0, 2, 0, 0⟩ ∧ AtMostOneSegment ⟨0, 2, 0, 0⟩ :=
  have hs : Settled true message ⟨0, 0, 0, 0⟩ ⟨0, 2, 0, 0⟩ := by
    refine ⟨1, _, mainLoop_eq true message (message_valid true) 1 0 (by decide),
      Or.inr ⟨Event.DDRB 2, ?_, rfl⟩⟩
    have hsh : shown message 0 1 = [72] := by decide
    obtain ⟨rest, hr⟩ := dwellSpec_two_passes (lookup 72)
    rw [run_mainInit, hsh, List.flatMap_cons, cycleSpec, hr, List.append_assoc, List.append_assoc,
      steps_append, List.mem_append, lookup_eq 72 (by decide)]
    left
    decide
  ⟨hs, settled_states_one_segment true message (by decide) _ _ hs⟩

theorem passOps_E_last :
    passOps (lookup 69) = (passOps (lookup 69)).dropLast ++ [⟨0, 8⟩] := by
  rw [lookup_eq 69 (by decide)]
  decide

theorem passSpec_E_head :
    passSpec (lookup 69) = Event.DDRA 1 :: (passSpec (lookup 69)).tail := by
  rw [lookup_eq 69 (by decide)]
  decide

theorem reachable_between_passes_of_E (isSigned : Bool) :
    ∃ r, Reachable isSigned message ⟨0, 0, 0, 0⟩ r ∧ r.ddra = 1 ∧ r.ddrb = 8 ∧
      popcount r.ddra + popcount r.ddrb = 2 := by
  have hsh : shown message 0 2 = [72, 69] := by decide
  obtain ⟨rest, hr⟩ := dwellSpec_two_passes (lookup 69)
  have hev : (shown message 0 2).flatMap cycleSpec =
      cycleSpec 72 ++ (passSpec (lookup 69) ++
        (Event.DDRA 1 :: ((passSpec (lookup 69)).tail ++ (rest ++ blank)))) := by
    rw [hsh, List.flatMap_cons, List.flatMap_cons, List.flatMap_nil, List.append_nil]
    conv_lhs => rw [cycleSpec.eq_1 69, hr]
    conv_lhs => enter [2, 1, 2, 1]; rw [passSpec_E_head]
    simp only [List.append_assoc, List.cons_append]
  let r3 := run (run ⟨0, 0, 0, 0⟩ (cycleSpec 72)) (passSpec (lookup 69))
  have h8 : r3.ddrb = 8 := by
    show (run _ (passSpec (lookup 69))).ddrb = 8
    rw [passSpec, passOps_E_last]
    exact (run_driveOps_last _ _ _).2
  refine ⟨r3.write (Event.DDRA 1), ?_, rfl, h8, ?_⟩
  · refine ⟨2, _, mainLoop_eq isSigned message (message_valid isSigned) 2 0 (by decide),
      Or.inr ⟨Event.DDRA 1, ?_⟩⟩
    rw [run_mainInit, hev, steps_append, steps_append]
    apply List.mem_append_right
    apply List.mem_append_right
    exact List.mem_cons_self _ _
  · show popcount 1 + popcount r3.ddrb = 2
    rw [h8]
    decide

/-- C1, as stated, fails: in the display cycle of the second character `E`
(mask sa|se|sf|sg|sh|su) the last slice of a scan pass writes DDRA = 0,
DDRB = 0x08 (SEG_U), and the first slice of the next pass writes DDRA = 0x01
(SEG_A) before it writes DDRB = 0; after that write DDRA = 0x01 and
DDRB = 0x08, two bits in total. This holds whether plain `char` is signed or
unsigned. -/
theorem two_direction_bits_reachable :
    (∃ r, Reachable true message ⟨0, 0, 0, 0⟩ r ∧ r.ddra = 1 ∧ r.ddrb = 8 ∧
      popcount r.ddra + popcount r.ddrb = 2) ∧
    (∃ r, Reachable false message ⟨0, 0, 0, 0⟩ r ∧ r.ddra = 1 ∧ r.ddrb = 8 ∧
      popcount r.ddra + popcount r.ddrb = 2) :=
  ⟨reachable_between_passes_of_E true, reachable_between_passes_of_E false⟩

/-! ## The segment driver -/

theorem activate_eq (i : Nat) (h : i < 15) :
    activate i = some [Event.DDRA (descriptor i).ddra, Event.DDRB (descriptor i).ddrb] := by
  simp only [activate, pgm_read_word_segments_eq i h, ofVal_val_descriptor i h,
    Option.bind_eq_bind, Option.some_bind, Option.pure_def]

theorem sliceBody_branches (pattern segmask i : Nat) :
    sliceBody pattern segmask i =
      (activate i).map fun a =>
        (if pattern &&& segmask ≠ 0 then a else deactivate_all) ++ [Event.delay_us 100] := by
  unfold sliceBody activate deactivate_all
  cases pgm_read_word_segments i with
  | none => rfl
  | some v =>
    by_cases hb : pattern &&& segmask ≠ 0
    · simp [hb]
    · simp [hb]

/-- C11: for every segment ordinal `i` in 0..14 the activate step (the true
branch of the slice) reads the descriptor and, from every prior register
state, leaves (DDRA, DDRB) equal to the descriptor of `i`, so the result does
not depend on the prior state and every direction bit outside the descriptor
is 0; deactivate_all (the false branch) leaves DDRA = 0 and DDRB = 0 from
every prior state. Each slice performs one of the two. -/
theorem no_residual_energization (i : Nat) (hi : i < NUM_SEGS) :
    ∃ act, activate i = some act ∧
      (∀ pattern segmask, sliceBody pattern segmask i =
        some ((if pattern &&& segmask ≠ 0 then act else deactivate_all) ++
          [Event.delay_us 100])) ∧
      (∀ r : Regs, (run r act).ddra = (descriptor i).ddra ∧
        (run r act).ddrb = (descriptor i).ddrb) ∧
      (∀ r q : Regs, (run r act).ddra = (run q act).ddra ∧
        (run r act).ddrb = (run q act).ddrb) ∧
      (∀ r : Regs, ∀ k,
        ((descriptor i).ddra.testBit k = false → (run r act).ddra.testBit k = false) ∧
        ((descriptor i).ddrb.testBit k = false → (run r act).ddrb.testBit k = false)) ∧
      (∀ r : Regs, (run r deactivate_all).ddra = 0 ∧ (run r deactivate_all).ddrb = 0) := by
  refine ⟨_, activate_eq i hi, ?_, ?_, ?_, ?_, ?_⟩
  · intro pattern segmask
    rw [sliceBody_branches, activate_eq i hi]
    rfl
  · intro r
    exact ⟨rfl, rfl⟩
  · intro r q
    exact ⟨rfl, rfl⟩
  · intro r k
    exact ⟨fun h => h, fun h => h⟩
  · intro r
    exact ⟨rfl, rfl⟩

theorem no_residual_energization_witness :
    ∃ act, activate SEG_E = some act ∧
      (∀ pattern segmask, sliceBody pattern segmask SEG_E =
        some ((if pattern &&& segmask ≠ 0 then act else deactivate_all) ++
          [Event.delay_us 100])) ∧
      (∀ r : Regs, (run r act).ddra = (descriptor SEG_E).ddra ∧
        (run r act).ddrb = (descriptor SEG_E).ddrb) ∧
      (∀ r q : Regs, (run r act).ddra = (run q act).ddra ∧
        (run r act).ddrb = (run q act).ddrb) ∧
      (∀ r : Regs, ∀ k,
        ((descriptor SEG_E).ddra.testBit k = false → (run r act).ddra.testBit k = false) ∧
        ((descriptor SEG_E).ddrb.testBit k = false → (run r act).ddrb.testBit k = false)) ∧
      (∀ r : Regs, (run r deactivate_all).ddra = 0 ∧ (run r deactivate_all).ddrb = 0) :=
  no_residual_energization SEG_E (by decide)

/-- C12: for every segment ordinal `i` in 0..14 and every register state,
performing the activate step for `i` twice in a row leaves the same registers
(DDRA, DDRB, PORTA, PORTB) as performing it once. -/
theorem activate_idempotent (i : Nat) (hi : i < NUM_SEGS) (r : Regs) :
    ∃ act, activate i = some act ∧ run r (act ++ act) = run r act ∧
      run (run r act) act = run r act := by
  refine ⟨_, activate_eq i hi, ?_, ?_⟩
  · rfl
  · rfl

theorem activate_idempotent_witness :
    ∃ act, activate SEG_U = some act ∧
      run ⟨0x40, 0x10, 0, 0⟩ (act ++ act) = run ⟨0x40, 0x10, 0, 0⟩ act ∧
      run (run ⟨0x40, 0x10, 0, 0⟩ act) act = run ⟨0x40, 0x10, 0, 0⟩ act :=
  activate_idempotent SEG_U (by decide) ⟨0x40, 0x10, 0, 0⟩

/-- C18: for every segment ordinal `i` in 0..14 the table read yields the
16-bit word `val = ddra + 256 × ddrb` of the pair that the initialiser of
`segments` gives for `i`; `s.ddra = val mod 256` and `s.ddrb = val div 256`
give that pair back, in that order. -/
theorem descriptor_round_trip (i : Nat) (hi : i < NUM_SEGS) :
    ∃ p ∈ segmentsInit, p.1 = i ∧
      pgm_read_word_segments i = some (p.2.ddra + 256 * p.2.ddrb) ∧
      p.2.ddra + 256 * p.2.ddrb < 65536 ∧
      (segment.ofVal (p.2.ddra + 256 * p.2.ddrb)).ddra = (p.2.ddra + 256 * p.2.ddrb) % 256 ∧
      (segment.ofVal (p.2.ddra + 256 * p.2.ddrb)).ddrb = (p.2.ddra + 256 * p.2.ddrb) / 256 ∧
      (segment.ofVal (p.2.ddra + 256 * p.2.ddrb)).ddra = p.2.ddra ∧
      (segment.ofVal (p.2.ddra + 256 * p.2.ddrb)).ddrb = p.2.ddrb ∧
      activate i = some [Event.DDRA p.2.ddra, Event.DDRB p.2.ddrb] := by
  have key : ∀ j, j < 15 → ∃ p ∈ segmentsInit, p.1 = j ∧
      designatedAt ⟨0, 0⟩ segmentsInit j = p.2 ∧
      p.2.ddra + 256 * p.2.ddrb < 65536 ∧
      (segment.ofVal (p.2.ddra + 256 * p.2.ddrb)).ddra = (p.2.ddra + 256 * p.2.ddrb) % 256 ∧
      (segment.ofVal (p.2.ddra + 256 * p.2.ddrb)).ddrb = (p.2.ddra + 256 * p.2.ddrb) / 256 ∧
      (segment.ofVal (p.2.ddra + 256 * p.2.ddrb)).ddra = p.2.ddra ∧
      (segment.ofVal (p.2.ddra + 256 * p.2.ddrb)).ddrb = p.2.ddrb := by
    decide
  obtain ⟨p, hp, h1, hd, h2, h3, h4, h5, h6⟩ := key i hi
  have hdesc : descriptor i = p.2 := by rw [descriptor_eq i hi, hd]
  refine ⟨p, hp, h1, ?_, h2, h3, h4, h5, h6, ?_⟩
  · rw [pgm_read_word_segments_eq i hi, hdesc]
    rfl
  · rw [activate_eq i hi, hdesc]

theorem descriptor_round_trip_witness :
    ∃ p ∈ segmentsInit, p.1 = SEG_D ∧
      pgm_read_word_segments SEG_D = some (p.2.ddra + 256 * p.2.ddrb) ∧
      p.2.ddra + 256 * p.2.ddrb < 65536 ∧
      (segment.ofVal (p.2.ddra + 256 * p.2.ddrb)).ddra = (p.2.ddra + 256 * p.2.ddrb) % 256 ∧
      (segment.ofVal (p.2.ddra + 256 * p.2.ddrb)).ddrb = (p.2.ddra + 256 * p.2.ddrb) / 256 ∧
      (segment.ofVal (p.2.ddra + 256 * p.2.ddrb)).ddra = p.2.ddra ∧
      (segment.ofVal (p.2.ddra + 256 * p.2.ddrb)).ddrb = p.2.ddrb ∧
      activate SEG_D = some [Event.DDRA p.2.ddra, Event.DDRB p.2.ddrb] :=
  descriptor_round_trip SEG_D (by decide)

/-! ## Scan order -/

theorem segVisits_eq (k i : Nat) (h : i + k = 15) :
    segVisits i (2 ^ i) = (List.range' i k).map fun j => (j, 2 ^ j) := by
  induction k generalizing i with
  | zero =>
    rw [segVisits]
    simp [NUM_SEGS]
    omega
  | succ k ih =>
    have hi : i < 15 := by omega
    have hs : (2 ^ i <<< 1) % 65536 = 2 ^ (i + 1) := by
      rw [Nat.shiftLeft_eq, ← Nat.pow_succ]
      apply Nat.mod_eq_of_lt
      calc 2 ^ (i + 1) ≤ 2 ^ 15 := Nat.pow_le_pow_right (by decide) (by omega)
        _ < 65536 := by decide
    rw [segVisits]
    simp only [NUM_SEGS, hi, if_true, hs, ih (i + 1) (by omega)]
    simp [List.range'_succ]

theorem segVisits_start :
    segVisits 0 sa = (List.range NUM_SEGS).map fun i => (i, 2 ^ i) := by
  have := segVisits_eq 15 0 (by decide)
  simpa [sa, SEG_A, NUM_SEGS, List.range_eq_range'] using this

theorem segLoop_visits (pattern : Nat) (k i m : Nat) (h : 15 ≤ i + k) :
    segLoop pattern i m =
      (segVisits i m).foldr
        (fun v acc => do
          let evs ← sliceBody pattern v.2 v.1
          let rest ← acc
          pure (evs ++ rest))
        (some []) := by
  induction k generalizing i m with
  | zero =>
    have hi : ¬ i < 15 := by omega
    rw [segLoop, segVisits]
    simp [NUM_SEGS, hi]
  | succ k ih =>
    rw [segLoop, segVisits]
    by_cases hi : i < 15
    · simp only [NUM_SEGS, hi, if_true, List.foldr_cons, ih (i + 1) _ (by omega)]
    · simp [NUM_SEGS, hi]

/-- C14: every scan pass executes the loop body for the ordinals 0, 1, ..., 14
in strictly increasing order, each exactly once; at the slice for ordinal `i`
the test mask `segmask` equals 2^i (non-zero and below 2^16), so the test
`pattern & segmask` is true exactly when bit `i` of the glyph mask is set. -/
theorem scan_order_and_mask :
    (∀ pattern, segLoop pattern 0 sa =
      (segVisits 0 sa).foldr
        (fun v acc => do
          let evs ← sliceBody pattern v.2 v.1
          let rest ← acc
          pure (evs ++ rest))
        (some [])) ∧
    (segVisits 0 sa).map Prod.fst = [0, 1, 2, 3, 4, 5, 6, 7, 8, 9, 10, 11, 12, 13, 14] ∧
    ((segVisits 0 sa).map Prod.fst).Pairwise (fun a b => a < b) ∧
    ((segVisits 0 sa).map Prod.fst).Nodup ∧
    (segVisits 0 sa).length = NUM_SEGS ∧
    (∀ v ∈ segVisits 0 sa, v.2 = 2 ^ v.1 ∧ 0 < v.2 ∧ v.2 < 65536) ∧
    (∀ pattern, ∀ v ∈ segVisits 0 sa,
      (pattern &&& v.2 ≠ 0 ↔ pattern.testBit v.1 = true)) := by
  have hfst : (segVisits 0 sa).map Prod.fst =
      [0, 1, 2, 3, 4, 5, 6, 7, 8, 9, 10, 11, 12, 13, 14] := by
    rw [segVisits_start]
    decide
  have hall : ∀ v ∈ segVisits 0 sa, v.2 = 2 ^ v.1 ∧ 0 < v.2 ∧ v.2 < 65536 := by
    rw [segVisits_start]
    decide
  refine ⟨fun pattern => segLoop_visits pattern 15 0 sa (by decide), hfst, ?_, ?_, ?_, hall, ?_⟩
  · rw [hfst]
    decide
  · rw [hfst]
    decide
  · rw [segVisits_start]
    simp
  · intro pattern v hv
    rw [(hall v hv).1]
    exact and_two_pow_ne_zero pattern v.1

/-! ## Frame and invariants over the whole run -/

theorem steps_invariant (P : Regs → Prop) (evs : List Event)
    (hstep : ∀ e ∈ evs, ∀ r, P r → P (r.write e)) (r : Regs) (hr : P r)
    (e : Event) (q : Regs) (h : (e, q) ∈ steps r evs) : P q := by
  induction evs generalizing r with
  | nil => simp [steps] at h
  | cons x evs ih =>
    have hx : P (r.write x) := hstep x (List.mem_cons_self _ _) r hr
    simp only [steps, List.mem_cons, Prod.mk.injEq] at h
    rcases h with ⟨_, rfl⟩ | h
    · exact hx
    · exact ih (fun e he => hstep e (List.mem_cons_of_mem _ he)) _ hx h

theorem run_invariant (P : Regs → Prop) (evs : List Event)
    (hstep : ∀ e ∈ evs, ∀ r, P r → P (r.write e)) (r : Regs) (hr : P r) : P (run r evs) := by
  induction evs generalizing r with
  | nil => exact hr
  | cons x evs ih =>
    exact ih (fun e he => hstep e (List.mem_cons_of_mem _ he)) _
      (hstep x (List.mem_cons_self _ _) r hr)

/-- Every event of a sequence of display cycles is a write of DDRA or DDRB
with a byte of a descriptor or with 0, or one of the two delays. -/
theorem mem_cycles (cs : List Nat) (e : Event) (h : e ∈ cs.flatMap cycleSpec) :
    (∃ j, j < NUM_SEGS ∧
      (e = Event.DDRA (descriptor j).ddra ∨ e = Event.DDRB (descriptor j).ddrb)) ∨
    e = Event.DDRA 0 ∨ e = Event.DDRB 0 ∨ e = Event.delay_us 100 ∨ e = Event.delay_ms 30 := by
  obtain ⟨c, _, hc⟩ := List.mem_flatMap.1 h
  rw [cycleSpec, List.mem_append] at hc
  rcases hc with hc | hc
  · obtain ⟨s, hs, hes⟩ := List.mem_flatMap.1 hc
    obtain ⟨j, hj, rfl⟩ := mem_dwellOps _ s hs
    simp only [driveOp, List.mem_cons, List.mem_nil_iff, or_false] at hes
    unfold driveRule at hes
    by_cases hb : (lookup c).testBit j = true
    · simp only [hb, if_true] at hes
      rcases hes with rfl | rfl | rfl
      · exact Or.inl ⟨j, hj, Or.inl rfl⟩
      · exact Or.inl ⟨j, hj, Or.inr rfl⟩
      · exact Or.inr (Or.inr (Or.inr (Or.inl rfl)))
    · simp only [hb] at hes
      rcases hes with rfl | rfl | rfl
      · exact Or.inr (Or.inl rfl)
      · exact Or.inr (Or.inr (Or.inl rfl))
      · exact Or.inr (Or.inr (Or.inr (Or.inl rfl)))
  · simp only [blank, List.mem_cons, List.mem_nil_iff, or_false] at hc
    rcases hc with rfl | rfl | rfl
    · exact Or.inr (Or.inl rfl)
    · exact Or.inr (Or.inr (Or.inl rfl))
    · exact Or.inr (Or.inr (Or.inr (Or.inr rfl)))

theorem cycles_keep_ports (cs : List Nat) (e : Event) (h : e ∈ cs.flatMap cycleSpec)
    (v : Nat) : e ≠ Event.PORTA v ∧ e ≠ Event.PORTB v := by
  rcases mem_cycles cs e h with ⟨j, _, rfl | rfl⟩ | rfl | rfl | rfl | rfl <;>
    exact ⟨fun h => Event.noConfusion h, fun h => Event.noConfusion h⟩

theorem descriptor_ddrb_bit7 : ∀ j, j < 15 → (descriptor j).ddrb.testBit 7 = false := by
  decide

theorem cycles_ddrb_bit7 (cs : List Nat) (v : Nat)
    (h : Event.DDRB v ∈ cs.flatMap cycleSpec) : v.testBit 7 = false := by
  rcases mem_cycles cs _ h with ⟨j, hj, h1 | h1⟩ | h1 | h1 | h1 | h1
  · exact Event.noConfusion h1
  · cases h1
    exact descriptor_ddrb_bit7 j hj
  · exact Event.noConfusion h1
  · cases h1
    rfl
  · exact Event.noConfusion h1
  · exact Event.noConfusion h1

theorem write_keeps_bit7 (e : Event) (he : ∀ v, e = Event.DDRB v → v.testBit 7 = false)
    (r : Regs) (hr : r.ddrb.testBit 7 = false) : (r.write e).ddrb.testBit 7 = false := by
  cases e with
  | DDRB v => exact he v rfl
  | DDRA v => exact hr
  | PORTA v => exact hr
  | PORTB v => exact hr
  | delay_us t => exact hr
  | delay_ms t => exact hr

theorem write_keeps_ports (e : Event) (he : ∀ v, e ≠ Event.PORTA v ∧ e ≠ Event.PORTB v)
    (r : Regs) : (r.write e).porta = r.porta ∧ (r.write e).portb = r.portb := by
  cases e with
  | PORTA v => exact absurd rfl (he v).1
  | PORTB v => exact absurd rfl (he v).2
  | DDRA v => exact ⟨rfl, rfl⟩
  | DDRB v => exact ⟨rfl, rfl⟩
  | delay_us t => exact ⟨rfl, rfl⟩
  | delay_ms t => exact ⟨rfl, rfl⟩

theorem reachable_cases (isSigned : Bool) (msg : List Nat)
    (hv : ValidMessage isSigned msg) (r0 r : Regs)
    (h : Reachable isSigned msg r0 r) :
    r = ⟨0, 0, 0, 0⟩ ∨
      ∃ n e, (e, r) ∈ steps ⟨0, 0, 0, 0⟩ ((shown msg 0 n).flatMap cycleSpec) := by
  obtain ⟨n, evs, hm, hr⟩ := h
  rw [mainLoop_eq isSigned msg hv n 0 (length_pos_of_valid isSigned msg hv)] at hm
  cases hm
  rw [run_mainInit] at hr
  rcases hr with rfl | ⟨e, he⟩
  · exact Or.inl rfl
  · exact Or.inr ⟨n, e, he⟩

/-- C15: no segment descriptor has bit 7 of `ddrb` set; no write of DDRB
performed by `main` has bit 7 set; hence bit 7 of DDRB is 0 in every state
reachable by `main`, and, when it is 0 on entry (the reset value), in every
state during the initial writes as well. This holds for every message and
whether plain `char` is signed or not. -/
theorem pb7_never_output (isSigned : Bool) (msg : List Nat)
    (hv : ValidMessage isSigned msg) (r0 : Regs) :
    (∀ i, i < NUM_SEGS → (descriptor i).ddrb.testBit 7 = false) ∧
    (∀ n, ∃ evs, main isSigned msg n = some evs ∧
      (∀ v, Event.DDRB v ∈ evs → v.testBit 7 = false) ∧
      (r0.ddrb.testBit 7 = false →
        ∀ e q, (e, q) ∈ steps r0 evs → q.ddrb.testBit 7 = false)) ∧
    (∀ r, Reachable isSigned msg r0 r → r.ddrb.testBit 7 = false) := by
  refine ⟨descriptor_ddrb_bit7, fun n => ?_, fun r hr => ?_⟩
  · have hw : ∀ v, Event.DDRB v ∈ mainInit ++ (shown msg 0 n).flatMap cycleSpec →
        v.testBit 7 = false := by
      intro v hmem
      rcases List.mem_append.1 hmem with h | h
      · simp only [mainInit, List.mem_cons, List.mem_nil_iff, or_false] at h
        rcases h with h | h | h | h
        · exact Event.noConfusion h
        · cases h
          rfl
        · exact Event.noConfusion h
        · exact Event.noConfusion h
      · exact cycles_ddrb_bit7 _ v h
    refine ⟨_, main_eq isSigned msg hv n, hw, fun h0 e q hq => ?_⟩
    exact steps_invariant (fun r => r.ddrb.testBit 7 = false) _
      (fun e he r hr => write_keeps_bit7 e (fun v hev => hw v (hev ▸ he)) r hr) r0 h0 e q hq
  · rcases reachable_cases isSigned msg hv r0 r hr with rfl | ⟨n, e, he⟩
    · rfl
    · exact steps_invariant (fun r => r.ddrb.testBit 7 = false) _
        (fun e he r hr =>
          write_keeps_bit7 e (fun v hev => cycles_ddrb_bit7 _ v (hev ▸ he)) r hr)
        ⟨0, 0, 0, 0⟩ rfl e r he

theorem pb7_never_output_witness :
    (∀ i, i < NUM_SEGS → (descriptor i).ddrb.testBit 7 = false) ∧
    (∀ n, ∃ evs, main true message n = some evs ∧
      (∀ v, Event.DDRB v ∈ evs → v.testBit 7 = false) ∧
      ((⟨0, 0, 0, 0⟩ : Regs).ddrb.testBit 7 = false →
        ∀ e q, (e, q) ∈ steps ⟨0, 0, 0, 0⟩ evs → q.ddrb.testBit 7 = false)) ∧
    (∀ r, Reachable true message ⟨0, 0, 0, 0⟩ r → r.ddrb.testBit 7 = false) :=
  pb7_never_output true message (by decide) ⟨0, 0, 0, 0⟩

/-- C17: the initial writes leave DDRA = DDRB = PORTA = PORTB = 0; no event of
the endless loop is a write of PORTA or PORTB; hence PORTA = 0 and PORTB = 0
in every state reachable by `main`, and every step of the loop leaves PORTA
and PORTB as they were. This holds for every message and whether plain `char`
is signed or not. -/
theorem port_latches_frame (isSigned : Bool) (msg : List Nat)
    (hv : ValidMessage isSigned msg) (r0 : Regs) :
    run r0 mainInit = ⟨0, 0, 0, 0⟩ ∧
    (∀ n, ∃ evs, mainLoop isSigned msg n 0 = some evs ∧
      (∀ e ∈ evs, ∀ v, e ≠ Event.PORTA v ∧ e ≠ Event.PORTB v) ∧
      (∀ e ∈ evs, ∀ r : Regs, (r.write e).porta = r.porta ∧ (r.write e).portb = r.portb)) ∧
    (∀ r, Reachable isSigned msg r0 r → r.porta = 0 ∧ r.portb = 0) := by
  refine ⟨run_mainInit r0, fun n => ?_, fun r hr => ?_⟩
  · refine ⟨_, mainLoop_eq isSigned msg hv n 0 (length_pos_of_valid isSigned msg hv),
      fun e he v => cycles_keep_ports _ e he v, fun e he r => ?_⟩
    exact write_keeps_ports e (fun v => cycles_keep_ports _ e he v) r
  · rcases reachable_cases isSigned msg hv r0 r hr with rfl | ⟨n, e, he⟩
    · exact ⟨rfl, rfl⟩
    · exact steps_invariant (fun r => r.porta = 0 ∧ r.portb = 0) _
        (fun e he r hr => by
          have := write_keeps_ports e (fun v => cycles_keep_ports _ e he v) r
          exact ⟨this.1.trans hr.1, this.2.trans hr.2⟩)
        ⟨0, 0, 0, 0⟩ ⟨rfl, rfl⟩ e r he

theorem port_latches_frame_witness :
    run ⟨0xFF, 0xFF, 0xFF, 0xFF⟩ mainInit = ⟨0, 0, 0, 0⟩ ∧
    (∀ n, ∃ evs, mainLoop true message n 0 = some evs ∧
      (∀ e ∈ evs, ∀ v, e ≠ Event.PORTA v ∧ e ≠ Event.PORTB v) ∧
      (∀ e ∈ evs, ∀ r : Regs, (r.write e).porta = r.porta ∧ (r.write e).portb = r.portb)) ∧
    (∀ r, Reachable true message ⟨0xFF, 0xFF, 0xFF, 0xFF⟩ r → r.porta = 0 ∧ r.portb = 0) :=
  port_latches_frame true message (by decide) ⟨0xFF, 0xFF, 0xFF, 0xFF⟩

/-! ## Periodicity -/

theorem run_blank (q : Regs) : run q blank = ⟨0, 0, q.porta, q.portb⟩ := rfl

theorem run_cycleSpec (r : Regs) (c : Nat) :
    run r (cycleSpec c) = ⟨0, 0, r.porta, r.portb⟩ := by
  have hstep : ∀ e ∈ dwellSpec (lookup c), ∀ q : Regs,
      (q.porta = r.porta ∧ q.portb = r.portb) →
        ((q.write e).porta = r.porta ∧ (q.write e).portb = r.portb) := by
    intro e he q hq
    have hmem : e ∈ [c].flatMap cycleSpec := by
      rw [List.flatMap_cons, List.flatMap_nil, List.append_nil, cycleSpec]
      exact List.mem_append_left _ he
    have := write_keeps_ports e (fun v => cycles_keep_ports _ e hmem v) q
    exact ⟨this.1.trans hq.1, this.2.trans hq.2⟩
  have hp := run_invariant (fun q => q.porta = r.porta ∧ q.portb = r.portb)
    (dwellSpec (lookup c)) hstep r ⟨rfl, rfl⟩
  rw [cycleSpec, run_append, run_blank, hp.1, hp.2]

theorem run_cycles_zero (cs : List Nat) :
    run ⟨0, 0, 0, 0⟩ (cs.flatMap cycleSpec) = ⟨0, 0, 0, 0⟩ := by
  induction cs with
  | nil => rfl
  | cons c cs ih => rw [List.flatMap_cons, run_append, run_cycleSpec, ih]

theorem topState_eq (isSigned : Bool) (msg : List Nat)
    (hv : ValidMessage isSigned msg) (r0 : Regs) (n : Nat) :
    topState isSigned msg r0 n = some (n % msg.length, ⟨0, 0, 0, 0⟩) := by
  simp only [topState, cursor_eq isSigned msg hv n, main_eq isSigned msg hv n, Option.bind_eq_bind,
    Option.some_bind, Option.pure_def, run_append, run_mainInit, run_cycles_zero]

theorem shown_period_front (msg : List Nat) (n : Nat) :
    shown msg 0 (n + msg.length) = shown msg 0 msg.length ++ shown msg 0 n := by
  rw [Nat.add_comm]
  simp only [shown, List.range_add, List.map_append, List.map_map, Nat.zero_add]
  congr 1
  apply List.map_congr_left
  intro k _
  simp [Function.comp]

theorem shown_period_back (msg : List Nat) (n : Nat) :
    shown msg 0 (n + msg.length) = shown msg 0 n ++ shown msg n msg.length := by
  simp only [shown, List.range_add, List.map_append, List.map_map, Nat.zero_add]
  rfl

theorem length_driveOps (ops : List segment) :
    (ops.flatMap driveOp).length = 3 * ops.length := by
  induction ops with
  | nil => rfl
  | cons s ops ih =>
    rw [List.flatMap_cons, List.length_append, ih, List.length_cons]
    simp only [driveOp, List.length_cons, List.length_nil]
    omega

theorem count_blank_driveOps (ops : List segment) :
    (ops.flatMap driveOp).count (Event.delay_ms 30) = 0 := by
  induction ops with
  | nil => rfl
  | cons s ops ih =>
    rw [List.flatMap_cons, List.count_append, ih]
    simp [driveOp, List.count_cons]

theorem cycles_measure (cs : List Nat) :
    driveCount (cs.flatMap cycleSpec) = cs.length * (NUM_SEGS * SPEED) ∧
    (cs.flatMap cycleSpec).count (Event.delay_ms 30) = cs.length ∧
    (cs.flatMap cycleSpec).length = 3 * (cs.length * (NUM_SEGS * SPEED + 1)) := by
  induction cs with
  | nil => exact ⟨by simp [driveCount], by simp, by simp⟩
  | cons c cs ih =>
    obtain ⟨h1, h2, h3⟩ := ih
    have hd := driveCount_cycleSpec c
    simp only [driveCount] at h1 hd
    have hb : (cycleSpec c).count (Event.delay_ms 30) = 1 := by
      rw [cycleSpec, List.count_append, dwellSpec, count_blank_driveOps]
      simp [blank, List.count_cons]
    have hl : (cycleSpec c).length = 3 * (NUM_SEGS * SPEED + 1) := by
      rw [cycleSpec, List.length_append, dwellSpec, length_driveOps, dwellOps_length,
        Nat.mul_comm SPEED]
      simp only [blank, List.length_cons, List.length_nil]
      omega
    refine ⟨?_, ?_, ?_⟩
    · simp only [driveCount, List.flatMap_cons, List.count_append, h1, hd, List.length_cons,
        Nat.mul_comm SPEED]
      rw [Nat.succ_mul, Nat.add_comm]
    · rw [List.flatMap_cons, List.count_append, h2, hb, List.length_cons, Nat.add_comm]
    · rw [List.flatMap_cons, List.length_append, h3, hl, List.length_cons]
      ring

theorem getElem?_shift_of_period {α : Type} (p e rest : List α) (h : p ++ e = e ++ rest)
    (k : Nat) (hk : k < e.length) : (p ++ e)[k + p.length]? = (p ++ e)[k]? := by
  have h1 : (p ++ e)[k + p.length]? = e[k]? := by
    rw [List.getElem?_append_right (Nat.le_add_left _ _), Nat.add_sub_cancel]
  rw [h1]
  conv_rhs => rw [h]
  rw [List.getElem?_append_left hk]

/-- C13: whether plain `char` is signed or not, the state of `main` at the
top of the outer loop (index of `c` and registers) is (0, all registers 0) at
the first cycle, is the same after 12 character cycles, and in general is the
same 12 cycles later; the events of the loop are periodic, the period being the events of the first 12 cycles,
that is 12 × (NUM_SEGS × SPEED drive slices + 1 blank) slices of three events
each. -/
theorem message_repeats (isSigned : Bool) (r0 : Regs) (n : Nat) :
    topState isSigned message r0 0 = some (0, ⟨0, 0, 0, 0⟩) ∧
    topState isSigned message r0 12 = topState isSigned message r0 0 ∧
    topState isSigned message r0 (n + 12) = topState isSigned message r0 n ∧
    ∃ period evs rest, mainLoop isSigned message 12 0 = some period ∧
      mainLoop isSigned message n 0 = some evs ∧
      mainLoop isSigned message (n + 12) 0 = some (period ++ evs) ∧
      period ++ evs = evs ++ rest ∧
      (∀ k, k < evs.length → (period ++ evs)[k + period.length]? = (period ++ evs)[k]?) ∧
      driveCount period = 12 * (NUM_SEGS * SPEED) ∧
      period.count (Event.delay_ms 30) = 12 ∧
      period.length = 3 * (12 * (NUM_SEGS * SPEED + 1)) := by
  have hv := (message_valid isSigned)
  have hlen : message.length = 12 := by decide
  have hpos : 0 < message.length := by rw [hlen]; decide
  have hfront := shown_period_front message n
  have hback := shown_period_back message n
  rw [hlen] at hfront hback
  have hm := cycles_measure (shown message 0 12)
  have hl12 : (shown message 0 12).length = 12 := by simp [shown]
  rw [hl12] at hm
  refine ⟨?_, ?_, ?_, (shown message 0 12).flatMap cycleSpec,
    (shown message 0 n).flatMap cycleSpec, (shown message n 12).flatMap cycleSpec,
    mainLoop_eq isSigned message hv 12 0 hpos, mainLoop_eq isSigned message hv n 0 hpos,
    ?_, ?_, ?_, hm.1, hm.2.1, hm.2.2⟩
  · rw [topState_eq isSigned message hv, hlen]
  · rw [topState_eq isSigned message hv, topState_eq isSigned message hv, hlen]
  · rw [topState_eq isSigned message hv, topState_eq isSigned message hv, hlen,
      Nat.add_mod_right]
  · rw [mainLoop_eq isSigned message hv (n + 12) 0 hpos, hfront, List.flatMap_append]
  · rw [← List.flatMap_append, ← List.flatMap_append, ← hfront, ← hback]
  · intro k hk
    apply getElem?_shift_of_period _ _ ((shown message n 12).flatMap cycleSpec) _ k hk
    rw [← List.flatMap_append, ← List.flatMap_append, ← hfront, ← hback]

/-! ## Table reads -/

theorem displayed_eq (isSigned : Bool) (msg : List Nat) (hv : ValidMessage isSigned msg)
    (n : Nat) : displayed isSigned msg n = msg[n % msg.length]? := by
  have hlt : n % msg.length < msg.length :=
    Nat.mod_lt n (length_pos_of_valid isSigned msg hv)
  simp only [displayed, cursor_eq isSigned msg hv n, Option.bind_eq_bind, Option.some_bind,
    readChar_lt msg _ hlt]
  simp [List.getD, List.getElem?_eq_getElem hlt]

theorem message_codes : ∀ b ∈ message, b < 128 ∧ ∃ p ∈ patternsInit, p.1 = b := by
  decide

theorem charValue_of_lt (isSigned : Bool) (b : Nat) (h : b < 128) :
    charValue isSigned b = (b : Int) := by
  have hb : decide (128 ≤ b) = false := by
    rw [decide_eq_false_iff_not]
    omega
  simp [charValue, hb]

/-- C16: every character of the message has a code in 0..127 and an explicit
entry in `patterns`, so the index `*c` is the same non-negative number below
256 whether `char` is signed or not and the read of `patterns` succeeds;
every index used in `segments+i` is below 15 and the read succeeds; the
character read at the top of every iteration is a character of the message;
and `main` never takes an out-of-range branch: its events exist for every
number of iterations, whether `char` is signed or not. -/
theorem table_reads_in_bounds (n : Nat) :
    (∀ b ∈ message, b < 128 ∧ (∃ p ∈ patternsInit, p.1 = b) ∧
      ∀ isSigned : Bool, 0 ≤ charValue isSigned b ∧ charValue isSigned b < 256 ∧
        pgm_read_word_patterns_at (charValue isSigned b) = pgm_read_word_patterns b ∧
        (pgm_read_word_patterns b).isSome = true) ∧
    (∀ v ∈ segVisits 0 sa, v.1 < 15 ∧ (pgm_read_word_segments v.1).isSome = true) ∧
    (∀ isSigned : Bool,
      (∃ ch, displayed isSigned message n = some ch ∧ ch ∈ message) ∧
      (∃ evs, main isSigned message n = some evs) ∧ main isSigned message n ≠ none) := by
  refine ⟨fun b hb => ?_, fun v hv => ?_, fun isSigned => ⟨?_, ?_, ?_⟩⟩
  · obtain ⟨h128, hentry⟩ := message_codes b hb
    refine ⟨h128, hentry, fun isSigned => ?_⟩
    rw [charValue_of_lt isSigned b h128]
    refine ⟨Int.ofNat_nonneg b, by omega, ?_, ?_⟩
    · simp [pgm_read_word_patterns_at]
    · rw [pgm_read_word_patterns_eq b (by omega)]
      rfl
  · have hlt : v.1 < 15 := by
      rw [segVisits_start] at hv
      obtain ⟨i, hi, rfl⟩ := List.mem_map.1 hv
      exact List.mem_range.1 hi
    refine ⟨hlt, ?_⟩
    rw [pgm_read_word_segments_eq v.1 hlt]
    rfl
  · have hlt : n % message.length < message.length :=
      Nat.mod_lt n (length_pos_of_valid isSigned message (message_valid isSigned))
    refine ⟨message[n % message.length], ?_, List.getElem_mem hlt⟩
    rw [displayed_eq isSigned message (message_valid isSigned) n,
      List.getElem?_eq_getElem hlt]
  · exact ⟨_, main_eq isSigned message (message_valid isSigned) n⟩
  · rw [main_eq isSigned message (message_valid isSigned) n]
    exact fun h => Option.noConfusion h

end Starburst
